import Mathlib

/-!
Verification development for the argsfuzz command-line fuzz-corpus generator.

The definitions below are a shallow embedding of the Python sources:
  - `src/argsfuzz/config.py`    (data model)
  - `src/argsfuzz/solver.py`    (`ConstraintSolver`)
  - `src/argsfuzz/constraints.py` (`ConstraintValidator`)
  - `src/argsfuzz/generator.py` (`Generator`)
  - `src/argsfuzz/values.py`    (`ValueGenerator`)
  - `src/argsfuzz/registry.py`  (`GeneratorRegistry`)
  - `src/argsfuzz/mutator.py`   (`Mutator`)

Modelling conventions:
  - Python `set[str]` is `Finset String`; Python `dict` is an association
    list `List (key × value)` looked up with `List.lookup` (Python dicts
    preserve a deterministic insertion order, and every place the source
    iterates a dict or set in an order that matters it sorts first, which
    the embedding mirrors).
  - Python `sorted(...)` over strings is modelled by an insertion sort on
    the code-point order of the underlying character lists (`strLe`),
    matching Python lexicographic string comparison.
  - The shared seeded random source is abstracted by oracle parameters:
    `choose : List String → String` for `rng.choice`,
    `shuffle : List String → List String` for `rng.shuffle`,
    `sample : List String → Nat → List String` for `rng.sample`.
    Theorems that need them assume only the properties each oracle has by
    construction (a choice is a member of its list, a shuffle is a
    permutation, a sample is drawn from its list).
  - Probabilities are `ℚ`; the engine only ever compares them to zero.
  - The unbounded `while changed:` loop of the dependency resolver is
    modelled with explicit fuel, returning `none` when the fuel runs out;
    `none` for every fuel value is non-termination of the source loop.
-/

namespace ArgsFuzz

/-! ## Lexicographic string order (Python string comparison) -/

/-- Lexicographic less-or-equal on character lists by code point,
the order Python uses to compare strings. -/
def strLeB : List Char → List Char → Bool
  | [], _ => true
  | _ :: _, [] => false
  | x :: xs, y :: ys => if x = y then strLeB xs ys else decide (x < y)

/-- Lexicographic less-or-equal on strings, as used by Python `sorted`. -/
def strLe (a b : String) : Bool := strLeB a.data b.data

theorem strLeB_total (xs ys : List Char) : strLeB xs ys = true ∨ strLeB ys xs = true := by
  induction xs generalizing ys with
  | nil => left; rfl
  | cons x xs ih =>
    cases ys with
    | nil => right; rfl
    | cons y ys =>
      by_cases hxy : x = y
      · subst hxy
        simpa [strLeB] using ih ys
      · rcases lt_or_gt_of_ne hxy with h | h
        · left; simp [strLeB, hxy, h]
        · right
          have hne : y ≠ x := ne_of_lt h
          simp [strLeB, hne, h]

theorem strLeB_antisymm {xs ys : List Char} (h1 : strLeB xs ys = true)
    (h2 : strLeB ys xs = true) : xs = ys := by
  induction xs generalizing ys with
  | nil =>
    cases ys with
    | nil => rfl
    | cons y ys => simp [strLeB] at h2
  | cons x xs ih =>
    cases ys with
    | nil => simp [strLeB] at h1
    | cons y ys =>
      by_cases hxy : x = y
      · subst hxy
        simp only [strLeB, if_pos rfl] at h1 h2
        rw [ih h1 h2]
      · have hne : y ≠ x := fun h => hxy h.symm
        simp only [strLeB, if_neg hxy, decide_eq_true_eq] at h1
        simp only [strLeB, if_neg hne, decide_eq_true_eq] at h2
        exact absurd h2 (lt_asymm h1)

theorem strLeB_trans {xs ys zs : List Char} (h1 : strLeB xs ys = true)
    (h2 : strLeB ys zs = true) : strLeB xs zs = true := by
  induction xs generalizing ys zs with
  | nil => rfl
  | cons x xs ih =>
    cases ys with
    | nil => simp [strLeB] at h1
    | cons y ys =>
      cases zs with
      | nil => simp [strLeB] at h2
      | cons z zs =>
        by_cases hxy : x = y <;> by_cases hyz : y = z
        · subst hxy; subst hyz
          simp only [strLeB, if_pos rfl] at h1 h2 ⊢
          exact ih h1 h2
        · subst hxy
          simp only [strLeB, if_pos rfl] at h1
          simp only [strLeB, if_neg hyz] at h2 ⊢
          exact h2
        · subst hyz
          simp only [strLeB, if_neg hxy] at *
          exact h1
        · simp only [strLeB, if_neg hxy, decide_eq_true_eq] at h1
          simp only [strLeB, if_neg hyz, decide_eq_true_eq] at h2
          have hxz : x < z := lt_trans h1 h2
          have hne : x ≠ z := ne_of_lt hxz
          simp [strLeB, hne, hxz]

theorem strLe_total (a b : String) : strLe a b = true ∨ strLe b a = true :=
  strLeB_total a.data b.data

theorem strLe_antisymm {a b : String} (h1 : strLe a b = true) (h2 : strLe b a = true) :
    a = b := by
  cases a; cases b
  exact congrArg String.mk (strLeB_antisymm h1 h2)

theorem strLe_trans {a b c : String} (h1 : strLe a b = true) (h2 : strLe b c = true) :
    strLe a c = true :=
  strLeB_trans h1 h2

/-- Insertion of a string into a list, keeping an ascending `strLe` order
when the list is already ascending (insertion-sort step). -/
def insort (x : String) : List String → List String
  | [] => [x]
  | y :: ys => if strLe x y then x :: y :: ys else y :: insort x ys

theorem mem_insort {a x : String} {l : List String} :
    a ∈ insort x l ↔ a = x ∨ a ∈ l := by
  induction l with
  | nil => simp [insort]
  | cons y ys ih =>
    by_cases h : strLe x y = true
    · simp [insort, h]
    · simp only [insort, if_neg h, List.mem_cons, ih]
      tauto

theorem insort_left_comm (x y : String) (l : List String) :
    insort x (insort y l) = insort y (insort x l) := by
  induction l with
  | nil =>
    simp only [insort]
    by_cases hxy : strLe x y = true <;> by_cases hyx : strLe y x = true <;>
      simp only [insort, hxy, hyx, if_pos, if_neg, if_true, if_false,
        Bool.false_eq_true, reduceIte]
    · rw [strLe_antisymm hxy hyx]
    · rcases strLe_total x y with h | h
      · exact absurd h hxy
      · exact absurd h hyx
  | cons a l ih =>
    simp only [insort]
    by_cases hxa : strLe x a = true <;> by_cases hya : strLe y a = true
    · by_cases hxy : strLe x y = true <;> by_cases hyx : strLe y x = true <;>
        simp only [insort, hxa, hya, hxy, hyx, if_pos, if_neg, if_true, if_false,
          Bool.false_eq_true, reduceIte]
      · rw [strLe_antisymm hxy hyx]
      · rcases strLe_total x y with h | h
        · exact absurd h hxy
        · exact absurd h hyx
    · have hyx : ¬ strLe y x = true := fun h => hya (strLe_trans h hxa)
      simp [insort, hxa, hya, hyx]
    · have hxy : ¬ strLe x y = true := fun h => hxa (strLe_trans h hya)
      simp [insort, hxa, hya, hxy]
    · simp [insort, hxa, hya, ih]

instance : LeftCommutative insort := ⟨insort_left_comm⟩

/-- Ascending list of the elements of a set of strings: the embedding of
Python `sorted(some_set)`. -/
def sortedNames (s : Finset String) : List String :=
  Multiset.foldr insort [] s.val

/-- Ascending re-ordering of a list of strings: the embedding of
Python `sorted(some_list)`. -/
def sortNameList (l : List String) : List String :=
  l.foldr insort []

theorem mem_sortedNames {a : String} {s : Finset String} :
    a ∈ sortedNames s ↔ a ∈ s := by
  show a ∈ Multiset.foldr _ [] s.val ↔ a ∈ s.val
  induction s.val using Multiset.induction_on with
  | empty => simp [sortedNames]
  | cons x m ih => simp [Multiset.foldr_cons, mem_insort, ih]

theorem mem_sortNameList {a : String} {l : List String} :
    a ∈ sortNameList l ↔ a ∈ l := by
  induction l with
  | nil => simp [sortNameList]
  | cons x xs ih =>
    simp only [sortNameList, List.foldr_cons, mem_insort, List.mem_cons]
    rw [show xs.foldr insort [] = sortNameList xs from rfl, ih]

theorem sortedNames_ne_nil {s : Finset String} (h : s.Nonempty) :
    sortedNames s ≠ [] := by
  obtain ⟨a, ha⟩ := h
  intro hnil
  have := mem_sortedNames.mpr ha
  rw [hnil] at this
  exact absurd this (List.not_mem_nil a)

/-! ## Data model (`config.py`, `solver.py`) -/

/-- Parameters of a custom generator (`params` dict); the engine only
passes them through, so string values suffice. -/
def Params := List (String × String)

instance : DecidableEq Params :=
  inferInstanceAs (DecidableEq (List (String × String)))

/-- Custom generator function: the source signature is
`(rng, params) -> str`; the seeded `rng` is abstracted away, leaving
`params -> str`. -/
def GenFunc := Params → String

/-- Value specification of an argument (the `value{kind,...}` dict).
Only the fields the embedded functions read are carried. -/
structure ValueSpec where
  kind : String
  generator : Option String := none
  params : Option Params := none
deriving DecidableEq

/-- Embedding of dataclass `Argument` from `config.py`. -/
structure Argument where
  name : String
  flags : List String
  description : String := ""
  probability : ℚ
  group : Option String := none
  depends_on : List String := []
  required : Bool := false
  value_spec : ValueSpec := { kind := "flag" }
  generator : Option String := none
  params : Option Params := none
deriving DecidableEq

/-- Embedding of dataclass `Rule` from `config.py`. -/
structure Rule where
  rule_type : String
  arguments : List String
  description : Option String := none
deriving DecidableEq

/-- Embedding of `ConstraintSolver` from `solver.py`, after parsing: the
argument map, the group index, the rule list with its precomputed
expansions, and the subcommand argument maps. -/
structure Solver where
  arguments : List (String × Argument)
  groups : List (String × List String)
  rules : List Rule
  expanded_rules : List (Rule × Finset String)
  subcommands : List (String × List (String × Argument)) := []

/-- Embedding of `ConstraintSolver._precompute_expanded_rules`: each rule
paired with its group-flattened set of argument names. -/
def precompute_expanded_rules (groups : List (String × List String))
    (rules : List Rule) : List (Rule × Finset String) :=
  rules.map (fun rule =>
    (rule, rule.arguments.foldl (fun acc arg =>
      match groups.lookup arg with
      | some members => acc ∪ members.toFinset
      | none => insert arg acc) ∅))

/-- Embedding of `ConstraintSolver.expand_groups`. -/
def Solver.expand_groups (solver : Solver) (arg_refs : List String) : Finset String :=
  arg_refs.foldl (fun acc arg_ref =>
    match solver.groups.lookup arg_ref with
    | some members => acc ∪ members.toFinset
    | none => insert arg_ref acc) ∅

/-- Test `arg in arguments and arguments[arg].probability > 0`, the guard
the source uses whenever it filters candidates by probability. -/
def pos_prob (arguments : List (String × Argument)) (n : String) : Bool :=
  match arguments.lookup n with
  | some a => decide (0 < a.probability)
  | none => false

/-- Helper relating an association-list lookup to membership. -/
theorem lookup_mem {β : Type} {l : List (String × β)} {n : String} {b : β}
    (h : l.lookup n = some b) : ∃ k, (k, b) ∈ l := by
  induction l with
  | nil => simp [List.lookup] at h
  | cons p t ih =>
    obtain ⟨k, v⟩ := p
    rw [List.lookup_cons] at h
    rcases hn : (n == k) with _ | _
    · rw [hn] at h
      obtain ⟨k2, hk2⟩ := ih h
      exact ⟨k2, List.mem_cons_of_mem _ hk2⟩
    · rw [hn] at h
      simp only [Option.some.injEq] at h
      exact ⟨k, by rw [h]; exact List.mem_cons_self _ _⟩

/-! ## Constraint validator (`constraints.py`) -/

/-- Embedding of the `ConstraintValidator` object state: the solver, the
`rng.choice` oracle standing in for `self.rng`, and the cached
`generated_values` map used by conditional dependencies. -/
structure ConstraintValidator where
  solver : Solver
  choose : List String → String
  generated_values : List (String × String) := []

/-- Split a character list at the first occurrence of `c`
(Python `s.split(c, 1)` when `c` occurs; `none` when it does not). -/
def splitFirst (c : Char) : List Char → Option (List Char × List Char)
  | [] => none
  | x :: xs =>
    if x = c then some ([], xs)
    else
      match splitFirst c xs with
      | some (pre, post) => some (x :: pre, post)
      | none => none

/-- Split a character list at every occurrence of `c`
(Python `s.split(c)`; the empty string yields `[""]`). -/
def splitAll (c : Char) : List Char → List (List Char)
  | [] => [[]]
  | x :: xs =>
    if x = c then [] :: splitAll c xs
    else
      match splitAll c xs with
      | h :: t => (x :: h) :: t
      | [] => [[x]]

/-- Strip leading and trailing whitespace (Python `str.strip()`). -/
def stripChars (l : List Char) : List Char :=
  ((l.dropWhile Char.isWhitespace).reverse.dropWhile Char.isWhitespace).reverse

/-- Embedding of `ConstraintValidator._parse_conditional_dep`:
`"arg"` is a simple dependency, `"arg=v1,v2"` a conditional one
(split at the first `=`, values split on `,` and stripped). -/
def parse_conditional_dep (dep : String) : String × Option (List String) :=
  match splitFirst '=' dep.data with
  | none => (dep, none)
  | some (pre, post) =>
    (String.mk pre, some ((splitAll ',' post).map (fun v => String.mk (stripChars v))))

/-- Embedding of `ConstraintValidator._is_conditional_dep_satisfied`. -/
def ConstraintValidator.is_conditional_dep_satisfied (v : ConstraintValidator)
    (arg_name : String) (allowed_values : List String) : Bool :=
  match v.generated_values.lookup arg_name with
  | none => false
  | some generated_value => allowed_values.contains generated_value

/-- Loop body of `ConstraintValidator._resolve_dependencies_for_arg`: walk
the `depends_on` expressions left to right accumulating dependencies; an
unsatisfied value condition returns the `__REMOVE_SELF__` marker set at
once, discarding the accumulator, exactly as the early `return` does. -/
def resolve_deps_go (v : ConstraintValidator) (arguments : List (String × Argument))
    (skip_conditional_deps : Bool) (selected : Finset String) :
    List String → Finset String → Finset String
  | [], acc => acc
  | dep :: rest, acc =>
    match parse_conditional_dep dep with
    | (dep_arg, some allowed_values) =>
      if skip_conditional_deps then
        if (arguments.lookup dep_arg).isSome then
          resolve_deps_go v arguments skip_conditional_deps selected rest (insert dep_arg acc)
        else
          resolve_deps_go v arguments skip_conditional_deps selected rest acc
      else if v.is_conditional_dep_satisfied dep_arg allowed_values then
        resolve_deps_go v arguments skip_conditional_deps selected rest acc
      else
        {"__REMOVE_SELF__"}
    | (dep_arg, none) =>
      match v.solver.groups.lookup dep_arg with
      | some members =>
        if (members.filter (fun m => decide (m ∈ selected))).isEmpty then
          let available := members.filter (fun m => (arguments.lookup m).isSome)
          if available.isEmpty then
            resolve_deps_go v arguments skip_conditional_deps selected rest acc
          else
            let with_prob := available.filter (fun m => pos_prob arguments m)
            resolve_deps_go v arguments skip_conditional_deps selected rest
              (insert (v.choose (if with_prob.isEmpty then available else with_prob)) acc)
        else
          resolve_deps_go v arguments skip_conditional_deps selected rest acc
      | none =>
        if (arguments.lookup dep_arg).isSome then
          resolve_deps_go v arguments skip_conditional_deps selected rest (insert dep_arg acc)
        else
          resolve_deps_go v arguments skip_conditional_deps selected rest acc

/-- Embedding of `ConstraintValidator._resolve_dependencies_for_arg`. -/
def ConstraintValidator.resolve_dependencies_for_arg (v : ConstraintValidator)
    (arg_name : String) (selected : Finset String)
    (arguments : List (String × Argument)) (skip_conditional_deps : Bool) : Finset String :=
  match arguments.lookup arg_name with
  | none => ∅
  | some arg => resolve_deps_go v arguments skip_conditional_deps selected arg.depends_on ∅

/-- Collect, over one pass of the `while changed:` loop in
`_resolve_all_dependencies`, the `to_remove` and `new_deps` sets from the
names iterated in sorted order (the per-pass `selected` is fixed, matching
the source, where mutation happens only after the pass). -/
def pass_collect (v : ConstraintValidator) (arguments : List (String × Argument))
    (skip_conditional_deps : Bool) (selected : Finset String) :
    List String → Finset String × Finset String
  | [] => (∅, ∅)
  | name :: rest =>
    let deps := v.resolve_dependencies_for_arg name selected arguments skip_conditional_deps
    let pr := pass_collect v arguments skip_conditional_deps selected rest
    if "__REMOVE_SELF__" ∈ deps then (insert name pr.1, pr.2)
    else (pr.1, pr.2 ∪ (deps \ selected))

/-- One iteration of the `while changed:` body: the updated selection and
whether anything changed (an argument was marked for removal or a new
dependency appeared). -/
def resolve_pass (v : ConstraintValidator) (arguments : List (String × Argument))
    (skip_conditional_deps : Bool) (selected : Finset String) : Finset String × Bool :=
  let pr := pass_collect v arguments skip_conditional_deps selected (sortedNames selected)
  ((selected \ pr.1) ∪ pr.2, decide (pr.1 ≠ ∅) || decide (pr.2 ≠ ∅))

/-- Embedding of `ConstraintValidator._resolve_all_dependencies` with
explicit fuel: `none` means the `while changed:` loop was still running
after `fuel` iterations (for every fuel value: it never terminates). -/
def ConstraintValidator.resolve_all_dependencies (v : ConstraintValidator)
    (arguments : List (String × Argument)) (skip_conditional_deps : Bool) :
    Nat → Finset String → Option (Finset String)
  | 0, _ => none
  | fuel + 1, selected =>
    let p := resolve_pass v arguments skip_conditional_deps selected
    if p.2 then v.resolve_all_dependencies arguments skip_conditional_deps fuel p.1
    else some p.1

/-- Embedding of one step of the rule loop in
`ConstraintValidator._fix_rules` for a single `(rule, expanded_args)`
pair. -/
def fix_rules_step (v : ConstraintValidator) (selected : Finset String)
    (ri : Rule × Finset String) : Finset String :=
  if ri.1.rule_type = "mutually_exclusive" ∧ 1 < (ri.2 ∩ selected).card then
    selected \ ((ri.2 ∩ selected) \ {v.choose (sortedNames (ri.2 ∩ selected))})
  else if ri.1.rule_type = "one_of_required" ∧ (ri.2 ∩ selected).card = 0 then
    if (ri.2.filter (fun arg => pos_prob v.solver.arguments arg = true)).Nonempty then
      insert (v.choose (sortedNames
        (ri.2.filter (fun arg => pos_prob v.solver.arguments arg = true)))) selected
    else selected
  else if ri.1.rule_type = "all_or_none" then
    if 0 < (ri.2 ∩ selected).card ∧ (ri.2 ∩ selected).card < ri.2.card then
      if (ri.2.filter (fun arg => pos_prob v.solver.arguments arg = true)).Nonempty then
        selected ∪ ri.2.filter (fun arg => pos_prob v.solver.arguments arg = true)
      else selected
    else selected
  else selected

/-- Embedding of `ConstraintValidator._fix_rules`: one pass over the
precomputed rule expansions. -/
def ConstraintValidator.fix_rules (v : ConstraintValidator)
    (selected : Finset String) : Finset String :=
  v.solver.expanded_rules.foldl (fix_rules_step v) selected

/-- Embedding of `ConstraintValidator.ensure_valid`: fix rules once, then
resolve dependencies iteratively (fuelled). -/
def ConstraintValidator.ensure_valid (v : ConstraintValidator)
    (selected : Finset String) (arguments : List (String × Argument))
    (skip_conditional_deps : Bool) (fuel : Nat) : Option (Finset String) :=
  v.resolve_all_dependencies arguments skip_conditional_deps fuel (v.fix_rules selected)

/-- Embedding of `ConstraintValidator.check_rule_violation`: true when
adding `arg_to_add` would leave more than one member of some
`mutually_exclusive` expansion selected. -/
def ConstraintValidator.check_rule_violation (v : ConstraintValidator)
    (selected : Finset String) (arg_to_add : String) : Bool :=
  let test_set := insert arg_to_add selected
  v.solver.expanded_rules.any (fun ri =>
    ri.1.rule_type == "mutually_exclusive" && decide (1 < (ri.2 ∩ test_set).card))

/-- Dependency-string walk inside `get_must_keep_args`: each raw
`depends_on` entry is compared verbatim with the selected names, and a
group label keeps its selected members. -/
def must_keep_deps (v : ConstraintValidator) (selected_args : List String)
    (depends_on : List String) (acc : Finset String) : Finset String :=
  depends_on.foldl (fun acc dep =>
    if selected_args.contains dep then insert dep acc
    else
      match v.solver.groups.lookup dep with
      | some members => acc ∪ (members.filter (fun m => selected_args.contains m)).toFinset
      | none => acc) acc

/-- Required-flag step of `get_must_keep_args`: a required argument stays. -/
def must_keep_req (arg : Argument) (acc : Finset String) (arg_name : String) : Finset String :=
  if arg.required then insert arg_name acc else acc

/-- Dependency step of `get_must_keep_args`: an argument with dependencies
stays, together with its raw-string-matched dependencies. -/
def must_keep_mid (v : ConstraintValidator) (sel : List String) (arg : Argument)
    (acc : Finset String) (arg_name : String) : Finset String :=
  if arg.depends_on ≠ [] then
    must_keep_deps v sel arg.depends_on (insert arg_name (must_keep_req arg acc arg_name))
  else must_keep_req arg acc arg_name

/-- Per-argument step of `get_must_keep_args`: the `required` check, the
dependency walk, and the is-anyone-depending-on-me check, in source
order. -/
def must_keep_step (v : ConstraintValidator) (sel : List String)
    (arguments : List (String × Argument)) (acc : Finset String)
    (arg_name : String) : Finset String :=
  match arguments.lookup arg_name with
  | none => acc
  | some arg =>
    if sel.any (fun other_name =>
        match arguments.lookup other_name with
        | some other_arg => other_arg.depends_on.contains arg_name
        | none => false) then
      insert arg_name (must_keep_mid v sel arg acc arg_name)
    else must_keep_mid v sel arg acc arg_name

/-- Per-rule step of `get_must_keep_args`: keep one representative
(sorted-list draw) of each intersecting `one_of_required` expansion. -/
def must_keep_rule_step (v : ConstraintValidator) (sel : List String)
    (acc : Finset String) (ri : Rule × Finset String) : Finset String :=
  if ri.1.rule_type = "one_of_required" then
    if (ri.2.filter (fun a => sel.contains a = true)).Nonempty then
      insert (v.choose (sortedNames (ri.2.filter (fun a => sel.contains a = true)))) acc
    else acc
  else acc

/-- Embedding of `ConstraintValidator.get_must_keep_args`. -/
def ConstraintValidator.get_must_keep_args (v : ConstraintValidator)
    (selected_args : List String) (arguments : List (String × Argument)) : Finset String :=
  v.solver.expanded_rules.foldl (must_keep_rule_step v selected_args)
    (selected_args.foldl (must_keep_step v selected_args arguments) ∅)

/-! ## Combination generator (`generator.py`) -/

/-- Local `can_remove` of `Generator._trim_to_target_count`: the selected
names outside the must-keep set. -/
def can_remove_args (v : ConstraintValidator) (selected_args : List String)
    (arguments : List (String × Argument)) : List String :=
  selected_args.filter (fun a => decide (a ∉ v.get_must_keep_args selected_args arguments))

/-- Local `remove_these` of `Generator._trim_to_target_count`: the sampled
names to drop. -/
def trim_removed (v : ConstraintValidator)
    (sample : List String → Nat → List String) (selected_args : List String)
    (target_count : Nat) (arguments : List (String × Argument)) : List String :=
  sample (can_remove_args v selected_args arguments)
    (min (selected_args.length - target_count)
      (can_remove_args v selected_args arguments).length)

/-- Embedding of `Generator._trim_to_target_count`; `sample` stands for
`rng.sample` (a draw without replacement from its first argument). -/
def trim_to_target_count (v : ConstraintValidator)
    (sample : List String → Nat → List String) (selected_args : List String)
    (target_count : Nat) (arguments : List (String × Argument)) : List String :=
  if selected_args.length ≤ target_count then selected_args
  else if (v.get_must_keep_args selected_args arguments).card ≤ target_count then
    if 0 < selected_args.length - target_count
        ∧ ¬ (can_remove_args v selected_args arguments).isEmpty then
      sortNameList (selected_args.filter (fun a =>
        ¬ (trim_removed v sample selected_args target_count arguments).contains a))
    else selected_args
  else sortedNames (v.get_must_keep_args selected_args arguments)

/-- Candidate walk of `Generator.add_to_target_count`: take the shuffled
pool in order, stop at the target count, and add a candidate only when
`check_rule_violation` rejects it for no rule. -/
def add_to_target_go (v : ConstraintValidator) (target_count : Nat) :
    List String → Finset String → Finset String
  | [], current => current
  | arg_name :: rest, current =>
    if target_count ≤ current.card then current
    else if v.check_rule_violation current arg_name then
      add_to_target_go v target_count rest current
    else
      add_to_target_go v target_count rest (insert arg_name current)

/-- Candidate pool of `Generator.add_to_target_count`: the not-yet-selected
positive-probability names of the root-scope argument map
`self.solver.arguments`. -/
def available_args (v : ConstraintValidator) (selected_args : List String) : List String :=
  (v.solver.arguments.map Prod.fst).filter
    (fun a => ¬ selected_args.contains a && pos_prob v.solver.arguments a)

/-- Embedding of `Generator.add_to_target_count`; `shuffle` stands for
`rng.shuffle` (a permutation of its argument). Note the candidate pool is
always drawn from `self.solver.arguments`, the root-scope map. -/
def add_to_target_count (v : ConstraintValidator)
    (shuffle : List String → List String) (selected_args : List String)
    (target_count : Nat) : List String :=
  if target_count ≤ selected_args.length then selected_args
  else if (available_args v selected_args).isEmpty then selected_args
  else
    sortedNames (add_to_target_go v target_count
      (shuffle (available_args v selected_args)) selected_args.toFinset)

/-! ## Value generator (`values.py`) and registry (`registry.py`) -/

/-- Embedding of `GeneratorRegistry.get`. -/
def GeneratorRegistry.get (registry : List (String × GenFunc)) (name : String) :
    Option GenFunc :=
  registry.lookup name

/-- Embedding of `GeneratorRegistry.list_generators`. -/
def GeneratorRegistry.list_generators (registry : List (String × GenFunc)) : List String :=
  registry.map Prod.fst

/-- Embedding of Python `", ".join`. -/
def joinComma : List String → String
  | [] => ""
  | [x] => x
  | x :: y :: rest => x ++ ", " ++ joinComma (y :: rest)

/-- Error message built by `_generate_custom` when the named generator is
absent from the registry: it names the argument and, when the registry is
non-empty, lists the registered names in sorted order. -/
def generator_not_found_msg (gen_name arg_name : String)
    (available : List String) : String :=
  let available_str :=
    if available.isEmpty then ""
    else "\nAvailable: " ++ joinComma (sortNameList available)
  "Generator \x27" ++ gen_name ++ "\x27 not found for \x27" ++ arg_name
    ++ "\x27." ++ available_str

/-- Resolution `generator or value_spec.get("generator")` of the generator
name used by `_generate_custom`. -/
def resolved_generator_name (value_spec : ValueSpec) (generator : Option String) :
    Option String :=
  match generator with
  | some g => some g
  | none => value_spec.generator

/-- Resolution `params or value_spec.get("params", {})` of the parameters
used by `_generate_custom`. -/
def resolved_params (value_spec : ValueSpec) (params : Option Params) : Params :=
  match params with
  | some p => p
  | none => value_spec.params.getD []

/-- Embedding of `ValueGenerator._generate_custom`: look the resolved name
up in the registry, call the function on success, raise (as `Except.error`)
with the argument name and the registered names on failure. -/
def generate_custom (registry : List (String × GenFunc)) (value_spec : ValueSpec)
    (arg_name : String) (generator : Option String) (params : Option Params) :
    Except String String :=
  match resolved_generator_name value_spec generator with
  | some gen_name =>
    match GeneratorRegistry.get registry gen_name with
    | some gen_func => .ok (gen_func (resolved_params value_spec params))
    | none =>
      .error (generator_not_found_msg gen_name arg_name
        (GeneratorRegistry.list_generators registry))
  | none =>
    .error ("Argument \x27" ++ arg_name ++ "\x27 has kind=\x27custom\x27 but no \x27generator\x27.")

/-- Embedding of `ValueGenerator.generate`. The built-in kind dispatch
table (whose entries all draw from the rng) is abstracted as the oracle
`builtins : kind → Option token-or-no-value`; `none` models a kind absent
from the table, which the source answers with `"default_value"`. -/
def ValueGenerator.generate (registry : List (String × GenFunc))
    (builtins : String → Option (Option String)) (value_spec : ValueSpec)
    (arg_name : String) (generator : Option String) (params : Option Params) :
    Except String (Option String) :=
  if value_spec.kind = "custom" ∨ generator.isSome then
    match generate_custom registry value_spec arg_name generator params with
    | .ok s => .ok (some s)
    | .error e => .error e
  else
    match builtins value_spec.kind with
    | some result => .ok result
    | none => .ok (some "default_value")

/-- Generic left-commutativity of ordered insertion under a linear order,
used to extract a sorted list from a `Finset` of integers. -/
theorem orderedInsert_left_comm {α : Type} [LinearOrder α] (x y : α) (l : List α) :
    List.orderedInsert (· ≤ ·) x (List.orderedInsert (· ≤ ·) y l) =
      List.orderedInsert (· ≤ ·) y (List.orderedInsert (· ≤ ·) x l) := by
  induction l with
  | nil =>
    simp only [List.orderedInsert]
    by_cases hxy : x ≤ y <;> by_cases hyx : y ≤ x <;>
      simp only [List.orderedInsert, hxy, hyx, if_true, if_false, reduceIte]
    · rw [le_antisymm hxy hyx]
    · rcases le_total x y with h | h
      · exact absurd h hxy
      · exact absurd h hyx
  | cons a l ih =>
    simp only [List.orderedInsert]
    by_cases hxa : x ≤ a <;> by_cases hya : y ≤ a
    · by_cases hxy : x ≤ y <;> by_cases hyx : y ≤ x <;>
        simp only [List.orderedInsert, hxa, hya, hxy, hyx, if_true, if_false, reduceIte]
      · rw [le_antisymm hxy hyx]
      · rcases le_total x y with h | h
        · exact absurd h hxy
        · exact absurd h hyx
    · have hyx : ¬ y ≤ x := fun h => hya (le_trans h hxa)
      simp [List.orderedInsert, hxa, hya, hyx]
    · have hxy : ¬ x ≤ y := fun h => hxa (le_trans h hya)
      simp [List.orderedInsert, hxa, hya, hxy]
    · simp [List.orderedInsert, hxa, hya, ih]

instance {α : Type} [LinearOrder α] :
    LeftCommutative (List.orderedInsert (α := α) (· ≤ ·)) :=
  ⟨orderedInsert_left_comm⟩

/-- Ascending list of the elements of a set of integers: the embedding of
Python `sorted(set(numbers))`. -/
def sortedInts (s : Finset Int) : List Int :=
  Multiset.foldr (List.orderedInsert (· ≤ ·)) [] s.val

/-- Range token of `_format_csv_range`: `f"{start}-{prev}"` when the run
is longer than one, else `str(start)`. -/
def csv_token (start prev : Int) : String :=
  if start ≠ prev then toString start ++ "-" ++ toString prev else toString start

/-- Scan loop of `_format_csv_range` over the tail of the sorted unique
numbers, carrying the current run `[start, prev]`. -/
def csv_ranges (start prev : Int) : List Int → List String
  | [] => [csv_token start prev]
  | num :: rest =>
    if num = prev + 1 then csv_ranges start num rest
    else csv_token start prev :: csv_ranges num num rest

/-- Body of `_format_csv_range` applied to the sorted unique numbers. -/
def format_sorted : List Int → String
  | [] => ""
  | [x] => toString x
  | x :: y :: rest => String.intercalate "," (csv_ranges x x (y :: rest))

/-- Embedding of `ValueGenerator._format_csv_range`. -/
def format_csv_range (numbers : List Int) : String :=
  if numbers.isEmpty then ""
  else format_sorted (sortedInts numbers.toFinset)

/-! ## Mutator (`mutator.py`) -/

/-- Embedding of `Mutator.mutate`. The five mutation strategies and the
`rng.choice` that picks one are abstracted as parameters, since each
strategy consumes the random stream; `target_invalid = false` returns the
token list before any strategy is consulted. -/
def Mutator.mutate (choose_strategy : List (List String → List String) → List String → List String)
    (strategies : List (List String → List String)) (args : List String)
    (target_invalid : Bool) : List String :=
  if ¬ target_invalid then args
  else choose_strategy strategies args

/-- Rule walk of `Mutator._add_conflicting_args`. `enum_set` models
Python `list(expand_groups(...))`: the enumeration, in interpreter hash
order, of an unordered set — the only data two runs of the same seed do
not share. `sample_pos` models `rng.sample(expanded, 2)`: the two distinct
positions the seeded stream picks, which depend only on the list length.
`choose` models `rng.choice` over a flag list. -/
def Mutator.add_conflicting_go (solver : Solver) (enum_set : Finset String → List String)
    (sample_pos : Nat × Nat) (choose : List String → String) (args : List String) :
    List Rule → List String
  | [] => args
  | rule :: rest =>
    if rule.rule_type = "mutually_exclusive" ∧ 2 ≤ rule.arguments.length then
      let expanded := enum_set (solver.expand_groups rule.arguments)
      if 2 ≤ expanded.length then
        match solver.arguments.lookup (expanded.getD sample_pos.1 ""),
            solver.arguments.lookup (expanded.getD sample_pos.2 "") with
        | some arg1, some arg2 => args ++ [choose arg1.flags, choose arg2.flags]
        | _, _ => Mutator.add_conflicting_go solver enum_set sample_pos choose args rest
      else Mutator.add_conflicting_go solver enum_set sample_pos choose args rest
    else Mutator.add_conflicting_go solver enum_set sample_pos choose args rest

/-- Embedding of `Mutator._add_conflicting_args`. -/
def Mutator.add_conflicting_args (solver : Solver) (enum_set : Finset String → List String)
    (sample_pos : Nat × Nat) (choose : List String → String) (args : List String) :
    List String :=
  Mutator.add_conflicting_go solver enum_set sample_pos choose args solver.rules

/-! ## Concrete oracles used by witnesses -/

/-- Concrete `rng.choice` oracle used by witnesses: pick the first element. -/
def choose_headD (l : List String) : String := l.headD ""

theorem choose_headD_mem : ∀ l : List String, l ≠ [] → choose_headD l ∈ l := by
  intro l h
  cases l with
  | nil => exact absurd rfl h
  | cons x xs => exact List.mem_cons_self x xs

/-- Concrete `rng.sample` oracle used by witnesses: take a prefix. -/
def sample_take (l : List String) (n : Nat) : List String := l.take n

theorem sample_take_mem : ∀ (l : List String) (n : Nat), ∀ x ∈ sample_take l n, x ∈ l :=
  fun _ _ _ hx => List.mem_of_mem_take hx

/-- Concrete `rng.shuffle` oracle used by witnesses: the identity permutation. -/
def shuffle_id (l : List String) : List String := l

theorem shuffle_id_mem : ∀ l : List String, ∀ x ∈ shuffle_id l, x ∈ l :=
  fun _ _ hx => hx

/-! ## C9: mutation identity -/

/-- C9: for every token list (and whatever the seeded strategy chooser and
the five strategies would do), `Mutator.mutate(tokens, target_invalid=false)`
returns the token list unchanged. -/
theorem mutate_identity_when_valid
    (choose_strategy : List (List String → List String) → List String → List String)
    (strategies : List (List String → List String)) (args : List String) :
    Mutator.mutate choose_strategy strategies args false = args := rfl

/-! ## C7: the CSV-range formatter -/

/-- C7: the CSV-range formatter sorts and de-duplicates its input
(its output is invariant under permutation and duplication of the input),
collapses maximal runs of consecutive integers into `start-end`, renders
singletons as themselves and joins tokens with commas; in particular
`format([5,2,3,9,2]) = "2-3,5,9"`, `format([]) = ""`, `format([7]) = "7"`,
`format([1,2,3,4]) = "1-4"` (maximal-run collapse) and
`format([1,3,5]) = "1,3,5"` (step must be exactly 1). -/
theorem csv_range_formatter_spec :
    format_csv_range [5, 2, 3, 9, 2] = "2-3,5,9" ∧
    format_csv_range [] = "" ∧
    format_csv_range [7] = "7" ∧
    format_csv_range [1, 2, 3, 4] = "1-4" ∧
    format_csv_range [1, 3, 5] = "1,3,5" ∧
    (∀ l1 l2 : List Int, l1.Perm l2 → format_csv_range l1 = format_csv_range l2) ∧
    (∀ (x : Int) (l : List Int),
      format_csv_range (x :: x :: l) = format_csv_range (x :: l)) := by
  refine ⟨by decide, by decide, by decide, by decide, by decide, ?_, ?_⟩
  · intro l1 l2 h
    cases l1 with
    | nil =>
      have : l2 = [] := h.symm.eq_nil
      subst this; rfl
    | cons x xs =>
      cases l2 with
      | nil => exact absurd h.eq_nil (by simp)
      | cons y ys =>
        have hfin : (x :: xs).toFinset = (y :: ys).toFinset := by
          ext a
          simp only [List.mem_toFinset]
          exact h.mem_iff
        simp only [format_csv_range, List.isEmpty_cons]
        rw [hfin]
  · intro x l
    simp only [format_csv_range, List.isEmpty_cons, List.toFinset_cons, Finset.insert_idem]

/-- Witness for C7: the permutation-invariance component applied at a
concrete pair of permuted lists. -/
theorem csv_range_formatter_spec_witness :
    format_csv_range [3, 1] = format_csv_range [1, 3] :=
  csv_range_formatter_spec.2.2.2.2.2.1 [3, 1] [1, 3] (by decide)

/-! ## C2: the dependency-resolution loop does not always terminate -/

/-- Argument `a` of the C2 failing input: conditionally depends on `c`
having value `x`. -/
def arg_c2_a : Argument :=
  { name := "a", flags := ["-a"], probability := 1, depends_on := ["c=x"] }

/-- Argument `b` of the C2 failing input: plainly depends on `a`. -/
def arg_c2_b : Argument :=
  { name := "b", flags := ["-b"], probability := 1, depends_on := ["a"] }

/-- Argument `c` of the C2 failing input. -/
def arg_c2_c : Argument :=
  { name := "c", flags := ["-c"], probability := 1 }

/-- Solver of the C2 failing input: three arguments, no groups, no rules. -/
def solver_c2 : Solver :=
  { arguments := [("a", arg_c2_a), ("b", arg_c2_b), ("c", arg_c2_c)]
    groups := []
    rules := []
    expanded_rules := precompute_expanded_rules [] [] }

/-- Validator of the C2 failing input: no value was generated for `c`. -/
def validator_c2 : ConstraintValidator :=
  { solver := solver_c2, choose := choose_headD, generated_values := [] }

/-- One pass on `{a, b}` removes `a` (its condition `c=x` is unsatisfied)
and one pass on `{b}` re-adds `a` (it is `b`'s plain dependency). -/
theorem resolve_pass_c2_cycle :
    resolve_pass validator_c2 solver_c2.arguments false (insert "a" {"b"})
        = ({"b"}, true) ∧
      resolve_pass validator_c2 solver_c2.arguments false {"b"}
        = (insert "a" {"b"}, true) := by
  decide

/-- C2: the dependency-resolution loop inside `ensure_valid` does NOT
terminate for every selection: on the selection `{a, b}` where `a` has the
unsatisfied conditional dependency `c=x` and `b` plainly depends on `a`,
the argument `a` removed in one pass is re-added in the next, forever —
the fuelled loop returns `none` for every fuel value, contradicting the
claimed bound. -/
theorem dependency_loop_divergence : ∀ fuel : Nat,
    validator_c2.ensure_valid (insert "a" {"b"}) solver_c2.arguments false fuel
      = none := by
  have key : ∀ n : Nat,
      validator_c2.resolve_all_dependencies solver_c2.arguments false n
          (insert "a" {"b"}) = none ∧
        validator_c2.resolve_all_dependencies solver_c2.arguments false n
          {"b"} = none := by
    intro n
    induction n with
    | zero => exact ⟨rfl, rfl⟩
    | succ n ih =>
      constructor
      · simp only [ConstraintValidator.resolve_all_dependencies,
          resolve_pass_c2_cycle.1]
        exact ih.2
      · simp only [ConstraintValidator.resolve_all_dependencies,
          resolve_pass_c2_cycle.2]
        exact ih.1
  intro fuel
  have hfix : validator_c2.fix_rules (insert "a" {"b"}) = insert "a" {"b"} := rfl
  show validator_c2.resolve_all_dependencies solver_c2.arguments false fuel
      (validator_c2.fix_rules (insert "a" {"b"})) = none
  rw [hfix]
  exact (key fuel).1

/-! ## C3: output depends on set-enumeration order in the mutator -/

/-- Argument `alpha` of the C3 failing input. -/
def arg_c3_alpha : Argument := { name := "alpha", flags := ["-a"], probability := 1 }

/-- Argument `beta` of the C3 failing input. -/
def arg_c3_beta : Argument := { name := "beta", flags := ["-b"], probability := 1 }

/-- The `mutually_exclusive` rule of the C3 failing input. -/
def rule_c3 : Rule := { rule_type := "mutually_exclusive", arguments := ["alpha", "beta"] }

/-- Solver of the C3 failing input. -/
def solver_c3 : Solver :=
  { arguments := [("alpha", arg_c3_alpha), ("beta", arg_c3_beta)]
    groups := []
    rules := [rule_c3]
    expanded_rules := precompute_expanded_rules [] [rule_c3] }

/-- C3 fails on the code: `_add_conflicting_args` materialises the
expansion set with `list(self.solver.expand_groups(...))` and feeds the
resulting interpreter-hash-ordered list to `rng.sample`. The two
enumerations below are both valid orders of the same two-element
expansion set, the random draws (positions 0 and 1, the flag choices) are
identical, yet the emitted token sequences differ — so two runs with the
same seed and schema need not produce identical output. -/
theorem mutator_output_depends_on_set_order :
    (["alpha", "beta"].toFinset = solver_c3.expand_groups ["alpha", "beta"]
        ∧ ["alpha", "beta"].Nodup) ∧
      (["beta", "alpha"].toFinset = solver_c3.expand_groups ["alpha", "beta"]
        ∧ ["beta", "alpha"].Nodup) ∧
      Mutator.add_conflicting_args solver_c3 (fun _ => ["alpha", "beta"]) (0, 1)
          choose_headD []
        ≠ Mutator.add_conflicting_args solver_c3 (fun _ => ["beta", "alpha"]) (0, 1)
          choose_headD [] := by
  decide

/-! ## Padding lemmas (C5, C6, C10) -/

theorem toFinset_sortedNames (s : Finset String) : (sortedNames s).toFinset = s := by
  ext a
  simp [List.mem_toFinset, mem_sortedNames]

theorem pos_prob_spec {arguments : List (String × Argument)} {x : String}
    (h : pos_prob arguments x = true) :
    ∃ arg, arguments.lookup x = some arg ∧ 0 < arg.probability := by
  cases hl : arguments.lookup x with
  | none => simp [pos_prob, hl] at h
  | some arg =>
    refine ⟨arg, rfl, ?_⟩
    simpa [pos_prob, hl] using h

/-- Every element of the result of the candidate walk was already current
or comes from the candidate list. -/
theorem add_to_target_go_mem (v : ConstraintValidator) (t : Nat) :
    ∀ (l : List String) (cur : Finset String) (x : String),
      x ∈ add_to_target_go v t l cur → x ∈ cur ∨ x ∈ l := by
  intro l
  induction l with
  | nil => exact fun cur x hx => Or.inl hx
  | cons a rest ih =>
    intro cur x hx
    simp only [add_to_target_go] at hx
    by_cases hc : t ≤ cur.card
    · rw [if_pos hc] at hx
      exact Or.inl hx
    · rw [if_neg hc] at hx
      by_cases hv : v.check_rule_violation cur a = true
      · rw [if_pos hv] at hx
        rcases ih cur x hx with h | h
        · exact Or.inl h
        · exact Or.inr (List.mem_cons_of_mem _ h)
      · rw [if_neg hv] at hx
        rcases ih (insert a cur) x hx with h | h
        · rcases Finset.mem_insert.mp h with rfl | h2
          · exact Or.inr (List.mem_cons_self _ _)
          · exact Or.inl h2
        · exact Or.inr (List.mem_cons_of_mem _ h)

/-- A negative `check_rule_violation` answer bounds the intersection of the
grown working set with each `mutually_exclusive` expansion. -/
theorem check_rule_violation_false {v : ConstraintValidator} {cur : Finset String}
    {a : String} (hv : ¬ v.check_rule_violation cur a = true)
    {rule : Rule} {E : Finset String} (hri : (rule, E) ∈ v.solver.expanded_rules)
    (hme : rule.rule_type = "mutually_exclusive") :
    ((insert a cur) ∩ E).card ≤ 1 := by
  unfold ConstraintValidator.check_rule_violation at hv
  rw [List.any_eq_true] at hv
  push_neg at hv
  have := hv (rule, E) hri
  simp only [hme, beq_self_eq_true, Bool.true_and, ne_eq, decide_eq_true_eq,
    not_lt] at this
  calc ((insert a cur) ∩ E).card = (E ∩ (insert a cur)).card := by rw [Finset.inter_comm]
    _ ≤ 1 := this

/-- The candidate walk never lets more than one member, beyond those of
`base`, of a `mutually_exclusive` expansion into the working set. -/
theorem add_to_target_go_me_bound (v : ConstraintValidator) (t : Nat)
    {rule : Rule} {E : Finset String} (hri : (rule, E) ∈ v.solver.expanded_rules)
    (hme : rule.rule_type = "mutually_exclusive") (base : Finset String) :
    ∀ (l : List String) (cur : Finset String),
      ((cur \ base) ∩ E).card ≤ 1 →
      ((add_to_target_go v t l cur \ base) ∩ E).card ≤ 1 := by
  intro l
  induction l with
  | nil => exact fun cur h => h
  | cons a rest ih =>
    intro cur hcur
    simp only [add_to_target_go]
    by_cases hc : t ≤ cur.card
    · rw [if_pos hc]; exact hcur
    · rw [if_neg hc]
      by_cases hv : v.check_rule_violation cur a = true
      · rw [if_pos hv]; exact ih cur hcur
      · rw [if_neg hv]
        refine ih (insert a cur) ?_
        have hbig := check_rule_violation_false hv hri hme
        calc ((insert a cur \ base) ∩ E).card
            ≤ ((insert a cur) ∩ E).card :=
              Finset.card_le_card
                (Finset.inter_subset_inter Finset.sdiff_subset (Finset.Subset.refl E))
          _ ≤ 1 := hbig

/-- C5: for every input selection, target count and shuffled pool order,
`add_to_target_count` never adds two members of the same
`mutually_exclusive` rule expansion — at most one name of each expansion
appears in its output beyond those already in its input (each candidate is
admitted only when `check_rule_violation` finds no expansion with more
than one selected member). -/
theorem pad_never_adds_two_exclusive_members (v : ConstraintValidator)
    (shuffle : List String → List String) (selected_args : List String)
    (target_count : Nat) (rule : Rule) (E : Finset String)
    (hri : (rule, E) ∈ v.solver.expanded_rules)
    (hme : rule.rule_type = "mutually_exclusive") :
    (((add_to_target_count v shuffle selected_args target_count).toFinset
        \ selected_args.toFinset) ∩ E).card ≤ 1 := by
  unfold add_to_target_count
  split_ifs with h1 h2
  · simp
  · simp
  · rw [toFinset_sortedNames]
    refine add_to_target_go_me_bound v target_count hri hme selected_args.toFinset _ _ ?_
    simp

/-- C10: `add_to_target_count` draws its candidates only from the
root-scope argument map `solver.arguments` (the function consults no other
scope), so every name in its output that is not in its input resolves in
the root map to an argument with positive probability. -/
theorem pad_candidates_come_from_root_scope (v : ConstraintValidator)
    (shuffle : List String → List String)
    (hshuffle : ∀ l : List String, ∀ x ∈ shuffle l, x ∈ l)
    (selected_args : List String) (target_count : Nat) (x : String)
    (hx : x ∈ add_to_target_count v shuffle selected_args target_count)
    (hnew : ¬ x ∈ selected_args) :
    ∃ arg, v.solver.arguments.lookup x = some arg ∧ 0 < arg.probability := by
  unfold add_to_target_count at hx
  split_ifs at hx with h1 h2
  · exact absurd hx hnew
  · exact absurd hx hnew
  · rw [← List.mem_toFinset, toFinset_sortedNames] at hx
    rcases add_to_target_go_mem v target_count _ _ x hx with h | h
    · exact absurd (List.mem_toFinset.mp h) hnew
    · have hav := hshuffle _ x h
      rw [available_args, List.mem_filter] at hav
      have hpos : pos_prob v.solver.arguments x = true := by
        have := hav.2
        simp only [Bool.and_eq_true, decide_eq_true_eq] at this
        exact this.2
      exact pos_prob_spec hpos

/-- Argument `x` of the C5 witness configuration. -/
def arg_w5_x : Argument := { name := "x", flags := ["-x"], probability := 1 }

/-- Argument `y` of the C5 witness configuration. -/
def arg_w5_y : Argument := { name := "y", flags := ["-y"], probability := 1 }

/-- Rule of the C5 witness configuration. -/
def rule_w5 : Rule := { rule_type := "mutually_exclusive", arguments := ["x", "y"] }

/-- Solver of the C5 witness configuration. -/
def solver_w5 : Solver :=
  { arguments := [("x", arg_w5_x), ("y", arg_w5_y)]
    groups := []
    rules := [rule_w5]
    expanded_rules := precompute_expanded_rules [] [rule_w5] }

/-- Validator of the C5 witness configuration. -/
def validator_w5 : ConstraintValidator := { solver := solver_w5, choose := choose_headD }

/-- Witness for C5 at a concrete configuration: padding the empty
selection toward two arguments under a `mutually_exclusive` rule over
`{x, y}` adds at most one of them. -/
theorem pad_never_adds_two_exclusive_members_witness :
    ((rule_w5, ({"x", "y"} : Finset String)) ∈ validator_w5.solver.expanded_rules) ∧
      (((add_to_target_count validator_w5 shuffle_id [] 2).toFinset
          \ ([] : List String).toFinset) ∩ ({"x", "y"} : Finset String)).card ≤ 1 :=
  ⟨by decide,
    pad_never_adds_two_exclusive_members validator_w5 shuffle_id [] 2 rule_w5
      {"x", "y"} (by decide) rfl⟩

/-- Argument `p` of the C10 witness configuration. -/
def arg_w10_p : Argument := { name := "p", flags := ["-p"], probability := 1 }

/-- Argument `q` of the C10 witness configuration. -/
def arg_w10_q : Argument := { name := "q", flags := ["-q"], probability := 1 }

/-- Solver of the C10 witness configuration. -/
def solver_w10 : Solver :=
  { arguments := [("p", arg_w10_p), ("q", arg_w10_q)]
    groups := []
    rules := []
    expanded_rules := precompute_expanded_rules [] [] }

/-- Validator of the C10 witness configuration. -/
def validator_w10 : ConstraintValidator := { solver := solver_w10, choose := choose_headD }

/-- Witness for C10 at a concrete configuration: the name `q` that padding
added beyond the input `["p"]` resolves in the root argument map with
positive probability. -/
theorem pad_candidates_come_from_root_scope_witness :
    ∃ arg, validator_w10.solver.arguments.lookup "q" = some arg ∧ 0 < arg.probability :=
  pad_candidates_come_from_root_scope validator_w10 shuffle_id shuffle_id_mem
    ["p"] 2 "q" (by decide) (by decide)

/-! ## Rule repair never adds zero-probability arguments (C6) -/

/-- One rule-repair step only adds positive-probability arguments:
everything in its output was already selected or passes the
probability filter. -/
theorem fix_rules_step_mem (v : ConstraintValidator)
    (hchoose : ∀ l : List String, l ≠ [] → v.choose l ∈ l)
    (s : Finset String) (ri : Rule × Finset String) (x : String)
    (hx : x ∈ fix_rules_step v s ri) :
    x ∈ s ∨ pos_prob v.solver.arguments x = true := by
  unfold fix_rules_step at hx
  split_ifs at hx with h1 h2 h3 h4 h5 h6
  · exact Or.inl (Finset.mem_sdiff.mp hx).1
  · rcases Finset.mem_insert.mp hx with rfl | h
    · have hne : sortedNames (ri.2.filter
          (fun arg => pos_prob v.solver.arguments arg = true)) ≠ [] :=
        sortedNames_ne_nil h3
      have hmem := hchoose _ hne
      rw [mem_sortedNames, Finset.mem_filter] at hmem
      exact Or.inr hmem.2
    · exact Or.inl h
  · exact Or.inl hx
  · rcases Finset.mem_union.mp hx with h | h
    · exact Or.inl h
    · exact Or.inr (Finset.mem_filter.mp h).2
  · exact Or.inl hx
  · exact Or.inl hx
  · exact Or.inl hx

/-- The rule-repair pass only adds positive-probability arguments. -/
theorem fix_rules_fold_mem (v : ConstraintValidator)
    (hchoose : ∀ l : List String, l ≠ [] → v.choose l ∈ l) :
    ∀ (rules : List (Rule × Finset String)) (s : Finset String) (x : String),
      x ∈ rules.foldl (fix_rules_step v) s →
      x ∈ s ∨ pos_prob v.solver.arguments x = true := by
  intro rules
  induction rules with
  | nil => exact fun s x hx => Or.inl hx
  | cons r rest ih =>
    intro s x hx
    rcases ih (fix_rules_step v s r) x hx with h | h
    · exact fix_rules_step_mem v hchoose s r x h
    · exact Or.inr h

/-- Amended C6 (positive part): rule repair (`_fix_rules`) and padding
(`add_to_target_count`) never add an argument whose probability is 0 — the
counterexample shows dependency resolution is the exception the original
claim does not survive. -/
theorem rule_repair_and_padding_never_add_zero_prob (v : ConstraintValidator)
    (hchoose : ∀ l : List String, l ≠ [] → v.choose l ∈ l)
    (shuffle : List String → List String)
    (hshuffle : ∀ l : List String, ∀ x ∈ shuffle l, x ∈ l) :
    (∀ (selected : Finset String) (x : String),
      x ∈ v.fix_rules selected → x ∉ selected →
      ∃ arg, v.solver.arguments.lookup x = some arg ∧ 0 < arg.probability) ∧
    (∀ (selected_args : List String) (target_count : Nat) (x : String),
      x ∈ add_to_target_count v shuffle selected_args target_count →
      x ∉ selected_args →
      ∃ arg, v.solver.arguments.lookup x = some arg ∧ 0 < arg.probability) := by
  constructor
  · intro selected x hx hnot
    rcases fix_rules_fold_mem v hchoose v.solver.expanded_rules selected x hx with h | h
    · exact absurd h hnot
    · exact pos_prob_spec h
  · intro selected_args target_count x hx hnot
    exact pad_candidates_come_from_root_scope v shuffle hshuffle selected_args
      target_count x hx hnot

/-- Argument `a` of the C6 counterexample: positive probability, plainly
depends on `b`. -/
def arg_c6_a : Argument :=
  { name := "a", flags := ["-a"], probability := 1, depends_on := ["b"] }

/-- Argument `b` of the C6 counterexample: probability 0, not required. -/
def arg_c6_b : Argument :=
  { name := "b", flags := ["-b"], probability := 0 }

/-- Solver of the C6 counterexample. -/
def solver_c6 : Solver :=
  { arguments := [("a", arg_c6_a), ("b", arg_c6_b)]
    groups := []
    rules := []
    expanded_rules := precompute_expanded_rules [] [] }

/-- Validator of the C6 counterexample. -/
def validator_c6 : ConstraintValidator := { solver := solver_c6, choose := choose_headD }

/-- Counterexample to C6: dependency resolution (part of the solver's own
machinery) adds the zero-probability, non-required argument `b` to the
selection `{a}` because `a` plainly depends on it — `_resolve_dependencies_for_arg`
adds a direct dependency with no probability check. -/
theorem dependency_resolution_adds_zero_prob :
    validator_c6.ensure_valid {"a"} solver_c6.arguments false 3
        = some (insert "a" {"b"}) ∧
      solver_c6.arguments.lookup "b" = some arg_c6_b ∧
      arg_c6_b.probability = 0 ∧
      arg_c6_b.required = false ∧
      "b" ∉ ({"a"} : Finset String) := by
  decide

/-- Argument `m` of the C6 witness configuration. -/
def arg_w6_m : Argument := { name := "m", flags := ["-m"], probability := 1 }

/-- Rule of the C6 witness configuration. -/
def rule_w6 : Rule := { rule_type := "one_of_required", arguments := ["m"] }

/-- Solver of the C6 witness configuration. -/
def solver_w6 : Solver :=
  { arguments := [("m", arg_w6_m)]
    groups := []
    rules := [rule_w6]
    expanded_rules := precompute_expanded_rules [] [rule_w6] }

/-- Validator of the C6 witness configuration. -/
def validator_w6 : ConstraintValidator := { solver := solver_w6, choose := choose_headD }

/-- Witness for the amended C6 at a concrete input: the name `m` that
`one_of_required` repair added to the empty selection has positive
probability in the argument map. -/
theorem rule_repair_never_adds_zero_prob_witness :
    ∃ arg, validator_w6.solver.arguments.lookup "m" = some arg ∧ 0 < arg.probability :=
  (rule_repair_and_padding_never_add_zero_prob validator_w6 choose_headD_mem
    shuffle_id shuffle_id_mem).1 ∅ "m" (by decide) (by decide)

/-! ## C1: invariant 1 after `ensure_valid` -/

/-- With no declared dependencies an argument resolves to no dependencies. -/
theorem resolve_deps_no_deps (v : ConstraintValidator)
    (arguments : List (String × Argument)) (skip : Bool) (selected : Finset String)
    (n : String)
    (hd : ∀ p ∈ arguments, (p : String × Argument).2.depends_on = ([] : List String)) :
    v.resolve_dependencies_for_arg n selected arguments skip = ∅ := by
  unfold ConstraintValidator.resolve_dependencies_for_arg
  cases hl : arguments.lookup n with
  | none => rfl
  | some arg =>
    obtain ⟨k, hk⟩ := lookup_mem hl
    have hargs : arg.depends_on = [] := hd (k, arg) hk
    show resolve_deps_go v arguments skip selected arg.depends_on ∅ = ∅
    rw [hargs]
    rfl

/-- With no declared dependencies a pass collects nothing. -/
theorem pass_collect_no_deps (v : ConstraintValidator)
    (arguments : List (String × Argument)) (skip : Bool) (selected : Finset String)
    (hd : ∀ p ∈ arguments, (p : String × Argument).2.depends_on = ([] : List String)) :
    ∀ l : List String, pass_collect v arguments skip selected l = (∅, ∅) := by
  intro l
  induction l with
  | nil => rfl
  | cons n rest ih =>
    simp [pass_collect, resolve_deps_no_deps v arguments skip selected n hd, ih]

/-- With no declared dependencies the resolution loop stabilises at once. -/
theorem resolve_all_no_deps (v : ConstraintValidator)
    (arguments : List (String × Argument)) (skip : Bool) (fuel : Nat)
    (selected : Finset String)
    (hd : ∀ p ∈ arguments, (p : String × Argument).2.depends_on = ([] : List String)) :
    v.resolve_all_dependencies arguments skip (fuel + 1) selected = some selected := by
  have hp : resolve_pass v arguments skip selected = (selected, false) := by
    unfold resolve_pass
    rw [pass_collect_no_deps v arguments skip selected hd]
    simp
  simp [ConstraintValidator.resolve_all_dependencies, hp]

/-- Shape of a rule-repair step for a `mutually_exclusive` rule. -/
theorem fix_rules_step_me (v : ConstraintValidator) (s : Finset String)
    (ri : Rule × Finset String) (hme : ri.1.rule_type = "mutually_exclusive") :
    fix_rules_step v s ri =
      if 1 < (ri.2 ∩ s).card then
        s \ ((ri.2 ∩ s) \ {v.choose (sortedNames (ri.2 ∩ s))})
      else s := by
  unfold fix_rules_step
  rw [hme]
  by_cases h : 1 < (ri.2 ∩ s).card
  · rw [if_pos ⟨rfl, h⟩, if_pos h]
  · rw [if_neg (fun hc => h hc.2), if_neg h,
      if_neg (fun hc : ("mutually_exclusive" = "one_of_required" ∧ _) => absurd hc.1 (by decide)),
      if_neg (show ¬ ("mutually_exclusive" = "all_or_none") by decide)]

/-- Rule repair over `mutually_exclusive` rules only removes arguments. -/
theorem fix_rules_me_subset (v : ConstraintValidator) :
    ∀ (rules : List (Rule × Finset String)) (s : Finset String),
      (∀ ri ∈ rules, (ri : Rule × Finset String).1.rule_type = "mutually_exclusive") →
      rules.foldl (fix_rules_step v) s ⊆ s := by
  intro rules
  induction rules with
  | nil => exact fun s _ => Finset.Subset.refl s
  | cons r rest ih =>
    intro s hr
    have hstep : fix_rules_step v s r ⊆ s := by
      rw [fix_rules_step_me v s r (hr r (List.mem_cons_self r rest))]
      by_cases h : 1 < (r.2 ∩ s).card
      · rw [if_pos h]; exact Finset.sdiff_subset
      · rw [if_neg h]
    exact Finset.Subset.trans
      (ih (fix_rules_step v s r) (fun ri hri => hr ri (List.mem_cons_of_mem r hri))) hstep

/-- After its own repair step, a `mutually_exclusive` expansion meets the
selection in at most one name. -/
theorem fix_rules_step_me_bound (v : ConstraintValidator) (s : Finset String)
    (ri : Rule × Finset String) (hme : ri.1.rule_type = "mutually_exclusive") :
    ((fix_rules_step v s ri) ∩ ri.2).card ≤ 1 := by
  rw [fix_rules_step_me v s ri hme]
  by_cases h : 1 < (ri.2 ∩ s).card
  · rw [if_pos h]
    have hsub : (s \ ((ri.2 ∩ s) \ {v.choose (sortedNames (ri.2 ∩ s))})) ∩ ri.2
        ⊆ {v.choose (sortedNames (ri.2 ∩ s))} := by
      intro x hx
      rw [Finset.mem_inter, Finset.mem_sdiff, Finset.mem_sdiff] at hx
      obtain ⟨⟨hxs, hnot⟩, hxe⟩ := hx
      by_cases hk : x ∈ ({v.choose (sortedNames (ri.2 ∩ s))} : Finset String)
      · exact hk
      · exact absurd ⟨Finset.mem_inter.mpr ⟨hxe, hxs⟩, hk⟩ hnot
    calc ((s \ ((ri.2 ∩ s) \ {v.choose (sortedNames (ri.2 ∩ s))})) ∩ ri.2).card
        ≤ ({v.choose (sortedNames (ri.2 ∩ s))} : Finset String).card :=
          Finset.card_le_card hsub
      _ = 1 := Finset.card_singleton _
  · rw [if_neg h]
    rw [Finset.inter_comm]
    exact Nat.le_of_not_lt h

/-- Rule repair over `mutually_exclusive` rules only leaves every
expansion meeting the result in at most one name. -/
theorem fix_rules_me_bound (v : ConstraintValidator) :
    ∀ (rules : List (Rule × Finset String)) (s : Finset String),
      (∀ ri ∈ rules, (ri : Rule × Finset String).1.rule_type = "mutually_exclusive") →
      ∀ ri ∈ rules, ((rules.foldl (fix_rules_step v) s) ∩ ri.2).card ≤ 1 := by
  intro rules
  induction rules with
  | nil => exact fun s _ ri hri => absurd hri (List.not_mem_nil ri)
  | cons r rest ih =>
    intro s hr ri hri
    rcases List.mem_cons.mp hri with rfl | hmem
    · have hsub := fix_rules_me_subset v rest (fix_rules_step v s ri)
        (fun x hx => hr x (List.mem_cons_of_mem ri hx))
      have hb := fix_rules_step_me_bound v s ri (hr ri (List.mem_cons_self ri rest))
      calc ((List.foldl (fix_rules_step v) (fix_rules_step v s ri) rest) ∩ ri.2).card
          ≤ ((fix_rules_step v s ri) ∩ ri.2).card :=
            Finset.card_le_card (Finset.inter_subset_inter hsub (Finset.Subset.refl ri.2))
        _ ≤ 1 := hb
    · exact ih (fix_rules_step v s r)
        (fun x hx => hr x (List.mem_cons_of_mem r hx)) ri hmem

/-- Amended C1: when every rule is `mutually_exclusive` and no argument of
the active scope declares dependencies, `ensure_valid` terminates and its
result selects at most one name of each expansion. The counterexample
shows the original claim fails as soon as dependency resolution can add
arguments, because added dependencies are never re-checked against the
rules. -/
theorem ensure_valid_exclusive_only (v : ConstraintValidator)
    (arguments : List (String × Argument)) (skip : Bool) (fuel : Nat)
    (selected : Finset String)
    (hr : ∀ ri ∈ v.solver.expanded_rules,
      (ri : Rule × Finset String).1.rule_type = "mutually_exclusive")
    (hd : ∀ p ∈ arguments, (p : String × Argument).2.depends_on = ([] : List String)) :
    ∃ t, v.ensure_valid selected arguments skip (fuel + 1) = some t ∧
      ∀ ri ∈ v.solver.expanded_rules,
        ((ri : Rule × Finset String).2 ∩ t).card ≤ 1 := by
  refine ⟨v.fix_rules selected, ?_, ?_⟩
  · exact resolve_all_no_deps v arguments skip fuel (v.fix_rules selected) hd
  · intro ri hri
    rw [Finset.inter_comm]
    exact fix_rules_me_bound v v.solver.expanded_rules selected hr ri hri

/-- Witness for the amended C1 at a concrete configuration: both members
of the exclusive pair selected, repair keeps exactly one. -/
theorem ensure_valid_exclusive_only_witness :
    ∃ t, validator_w5.ensure_valid (insert "x" {"y"}) solver_w5.arguments true 1
        = some t ∧
      ∀ ri ∈ validator_w5.solver.expanded_rules,
        ((ri : Rule × Finset String).2 ∩ t).card ≤ 1 :=
  ensure_valid_exclusive_only validator_w5 solver_w5.arguments true 0
    (insert "x" {"y"}) (by decide) (by decide)

/-- Argument `a` of the C1 counterexample: plainly depends on `b`. -/
def arg_c1_a : Argument :=
  { name := "a", flags := ["-a"], probability := 1, depends_on := ["b"] }

/-- Argument `b` of the C1 counterexample. -/
def arg_c1_b : Argument := { name := "b", flags := ["-b"], probability := 1 }

/-- Argument `c` of the C1 counterexample. -/
def arg_c1_c : Argument := { name := "c", flags := ["-c"], probability := 1 }

/-- The `mutually_exclusive` rule of the C1 counterexample: `b` and `c`
must not be selected together. -/
def rule_c1 : Rule := { rule_type := "mutually_exclusive", arguments := ["b", "c"] }

/-- Solver of the C1 counterexample. -/
def solver_c1 : Solver :=
  { arguments := [("a", arg_c1_a), ("b", arg_c1_b), ("c", arg_c1_c)]
    groups := []
    rules := [rule_c1]
    expanded_rules := precompute_expanded_rules [] [rule_c1] }

/-- Validator of the C1 counterexample. -/
def validator_c1 : ConstraintValidator := { solver := solver_c1, choose := choose_headD }

/-- Counterexample to C1: on the selection `{a, c}` the rule pass finds
the exclusive pair `{b, c}` represented only by `c`, then dependency
resolution adds `b` for `a` without re-checking rules, so `ensure_valid`
returns `{a, b, c}`, which selects two names of the same
`mutually_exclusive` expansion. -/
theorem ensure_valid_violates_exclusivity :
    (validator_c1.ensure_valid (insert "a" {"c"}) solver_c1.arguments true 5).map
          sortedNames
        = some ["a", "b", "c"] ∧
      (rule_c1, ({"b", "c"} : Finset String)) ∈ validator_c1.solver.expanded_rules ∧
      rule_c1.rule_type = "mutually_exclusive" ∧
      1 < (({"b", "c"} : Finset String)
          ∩ (["a", "b", "c"] : List String).toFinset).card := by
  decide

/-! ## C4: trim safety -/

theorem contains_mem {a : String} {l : List String} : l.contains a = true ↔ a ∈ l := by
  simp

/-- The raw dependency walk of `get_must_keep_args` only collects names
that are selected. -/
theorem must_keep_deps_mem (v : ConstraintValidator) (sel : List String) :
    ∀ (deps : List String) (acc : Finset String) (x : String),
      x ∈ must_keep_deps v sel deps acc → x ∈ acc ∨ x ∈ sel := by
  intro deps
  induction deps with
  | nil => exact fun acc x hx => Or.inl hx
  | cons d rest ih =>
    intro acc x hx
    have hx2 : x ∈ must_keep_deps v sel rest
        (if sel.contains d then insert d acc
          else match v.solver.groups.lookup d with
            | some members => acc ∪ (members.filter (fun m => sel.contains m)).toFinset
            | none => acc) := hx
    rcases ih _ x hx2 with h | h
    · by_cases hc : sel.contains d = true
      · rw [if_pos hc] at h
        rcases Finset.mem_insert.mp h with rfl | h2
        · exact Or.inr (contains_mem.mp hc)
        · exact Or.inl h2
      · rw [if_neg hc] at h
        cases hg : v.solver.groups.lookup d with
        | none => rw [hg] at h; exact Or.inl h
        | some members =>
          rw [hg] at h
          rcases Finset.mem_union.mp h with h2 | h2
          · exact Or.inl h2
          · rw [List.mem_toFinset, List.mem_filter] at h2
            exact Or.inr (contains_mem.mp h2.2)
    · exact Or.inr h

/-- One per-argument step of `get_must_keep_args` only collects the
processed name (which is selected) or other selected names. -/
theorem must_keep_step_mem (v : ConstraintValidator) (sel : List String)
    (arguments : List (String × Argument)) (acc : Finset String) (n : String)
    (hn : n ∈ sel) (hacc : ∀ x ∈ acc, x ∈ sel) :
    ∀ x ∈ must_keep_step v sel arguments acc n, x ∈ sel := by
  intro x hx
  have hmid : ∀ (arg : Argument) (z : String), z ∈ must_keep_mid v sel arg acc n → z ∈ sel := by
    intro arg z hz
    have hreq : ∀ w ∈ must_keep_req arg acc n, w ∈ sel := by
      intro w hw
      unfold must_keep_req at hw
      split_ifs at hw with h
      · rcases Finset.mem_insert.mp hw with rfl | h2
        · exact hn
        · exact hacc w h2
      · exact hacc w hw
    unfold must_keep_mid at hz
    split_ifs at hz with h
    · rcases must_keep_deps_mem v sel arg.depends_on _ z hz with h2 | h2
      · rcases Finset.mem_insert.mp h2 with rfl | h3
        · exact hn
        · exact hreq z h3
      · exact h2
    · exact hreq z hz
  unfold must_keep_step at hx
  cases harg : arguments.lookup n with
  | none => rw [harg] at hx; exact hacc x hx
  | some arg =>
    rw [harg] at hx
    split_ifs at hx with h
    · rcases Finset.mem_insert.mp hx with rfl | h2
      · exact hn
      · exact hmid arg x h2
    · exact hmid arg x hx

/-- The per-argument fold of `get_must_keep_args` only collects selected
names. -/
theorem must_keep_base_mem (v : ConstraintValidator) (sel : List String)
    (arguments : List (String × Argument)) :
    ∀ (l : List String), (∀ y ∈ l, y ∈ sel) →
      ∀ (acc : Finset String), (∀ x ∈ acc, x ∈ sel) →
      ∀ x ∈ l.foldl (must_keep_step v sel arguments) acc, x ∈ sel := by
  intro l
  induction l with
  | nil => exact fun _ acc hacc x hx => hacc x hx
  | cons n rest ih =>
    intro hl acc hacc x hx
    rw [List.foldl_cons] at hx
    exact ih (fun y hy => hl y (List.mem_cons_of_mem n hy)) _
      (must_keep_step_mem v sel arguments acc n (hl n (List.mem_cons_self n rest)) hacc)
      x hx

/-- The per-rule fold of `get_must_keep_args` only collects selected
names. -/
theorem must_keep_rules_mem (v : ConstraintValidator) (sel : List String)
    (hchoose : ∀ l : List String, l ≠ [] → v.choose l ∈ l) :
    ∀ (rules : List (Rule × Finset String)) (acc : Finset String),
      (∀ x ∈ acc, x ∈ sel) →
      ∀ x ∈ rules.foldl (must_keep_rule_step v sel) acc, x ∈ sel := by
  intro rules
  induction rules with
  | nil => exact fun acc hacc x hx => hacc x hx
  | cons r rest ih =>
    intro acc hacc x hx
    rw [List.foldl_cons] at hx
    refine ih _ ?_ x hx
    intro z hz
    unfold must_keep_rule_step at hz
    split_ifs at hz with h1 h2
    · rcases Finset.mem_insert.mp hz with rfl | h3
      · have hne := sortedNames_ne_nil h2
        have hmem := hchoose _ hne
        rw [mem_sortedNames, Finset.mem_filter] at hmem
        exact contains_mem.mp hmem.2
      · exact hacc z h3
    · exact hacc z hz
    · exact hacc z hz

/-- The must-keep set is drawn from the selected arguments. -/
theorem get_must_keep_subset (v : ConstraintValidator)
    (hchoose : ∀ l : List String, l ≠ [] → v.choose l ∈ l)
    (selected_args : List String) (arguments : List (String × Argument)) :
    ∀ x ∈ v.get_must_keep_args selected_args arguments, x ∈ selected_args := by
  intro x hx
  unfold ConstraintValidator.get_must_keep_args at hx
  refine must_keep_rules_mem v selected_args hchoose v.solver.expanded_rules _ ?_ x hx
  exact must_keep_base_mem v selected_args arguments selected_args
    (fun y hy => hy) ∅ (fun y hy => absurd hy (Finset.not_mem_empty y))

/-- C4 (amended): the result of `_trim_to_target_count` contains every
name of the computed must-keep set (required arguments, dependents,
raw-string-matched dependencies and group members of selected arguments,
and one representative per intersecting `one_of_required` expansion). The
counterexample shows conditional dependency targets are NOT in that set
and are not otherwise protected. -/
theorem trim_keeps_must_keep (v : ConstraintValidator)
    (sample : List String → Nat → List String)
    (hsample : ∀ (l : List String) (n : Nat), ∀ x ∈ sample l n, x ∈ l)
    (hchoose : ∀ l : List String, l ≠ [] → v.choose l ∈ l)
    (selected_args : List String) (target_count : Nat)
    (arguments : List (String × Argument)) (x : String)
    (hx : x ∈ v.get_must_keep_args selected_args arguments) :
    x ∈ trim_to_target_count v sample selected_args target_count arguments := by
  have hsel : x ∈ selected_args := get_must_keep_subset v hchoose selected_args arguments x hx
  unfold trim_to_target_count
  split_ifs with h1 h2 h3
  · exact hsel
  · rw [mem_sortNameList, List.mem_filter]
    refine ⟨hsel, ?_⟩
    simp only [decide_eq_true_eq]
    intro hcontains
    have hxin : x ∈ trim_removed v sample selected_args target_count arguments :=
      contains_mem.mp hcontains
    have hcan : x ∈ can_remove_args v selected_args arguments :=
      hsample _ _ x hxin
    rw [can_remove_args, List.mem_filter] at hcan
    have := hcan.2
    simp only [decide_eq_true_eq] at this
    exact this hx
  · exact hsel
  · rw [mem_sortedNames]
    exact hx

/-- Argument `a` of the C4 counterexample: conditionally depends on `b`
having value `x`. -/
def arg_c4_a : Argument :=
  { name := "a", flags := ["-a"], probability := 1, depends_on := ["b=x"] }

/-- Argument `b` of the C4 counterexample: the conditional target. -/
def arg_c4_b : Argument := { name := "b", flags := ["-b"], probability := 1 }

/-- Solver of the C4 counterexample. -/
def solver_c4 : Solver :=
  { arguments := [("a", arg_c4_a), ("b", arg_c4_b)]
    groups := []
    rules := []
    expanded_rules := precompute_expanded_rules [] [] }

/-- Validator of the C4 counterexample. -/
def validator_c4 : ConstraintValidator := { solver := solver_c4, choose := choose_headD }

/-- Counterexample to C4 as stated: `a` conditionally depends on `b` (the
raw dependency string is `"b=x"`), both are selected, yet trimming
`["a", "b"]` to one argument removes the conditional target `b` while
keeping its dependent `a` — `get_must_keep_args` compares the raw string
`"b=x"` with the selected names, so `b` is not protected. -/
theorem trim_drops_conditional_target :
    trim_to_target_count validator_c4 sample_take ["a", "b"] 1 solver_c4.arguments
        = ["a"] ∧
      arg_c4_a.depends_on = ["b=x"] ∧
      parse_conditional_dep "b=x" = ("b", some ["x"]) ∧
      ("b" ∈ (["a", "b"] : List String)) ∧
      ¬ ("b" ∈ (["a"] : List String)) ∧
      ¬ ("b" ∈ validator_c4.get_must_keep_args ["a", "b"] solver_c4.arguments) := by
  decide

/-- Argument `r` of the C4 witness configuration: required. -/
def arg_w4_r : Argument :=
  { name := "r", flags := ["-r"], probability := 1, required := true }

/-- Argument `s` of the C4 witness configuration. -/
def arg_w4_s : Argument := { name := "s", flags := ["-s"], probability := 1 }

/-- Argument `t` of the C4 witness configuration. -/
def arg_w4_t : Argument := { name := "t", flags := ["-t"], probability := 1 }

/-- Solver of the C4 witness configuration. -/
def solver_w4 : Solver :=
  { arguments := [("r", arg_w4_r), ("s", arg_w4_s), ("t", arg_w4_t)]
    groups := []
    rules := []
    expanded_rules := precompute_expanded_rules [] [] }

/-- Validator of the C4 witness configuration. -/
def validator_w4 : ConstraintValidator := { solver := solver_w4, choose := choose_headD }

/-- Witness for the amended C4 at a concrete configuration: the required
argument `r` survives a trim from three arguments to one. -/
theorem trim_keeps_must_keep_witness :
    "r" ∈ trim_to_target_count validator_w4 sample_take ["r", "s", "t"] 1
      solver_w4.arguments :=
  trim_keeps_must_keep validator_w4 sample_take sample_take_mem choose_headD_mem
    ["r", "s", "t"] 1 solver_w4.arguments "r" (by decide)

/-! ## C8: custom-generator lookup and the plugin-not-found error -/

/-- Every member of a joined list occurs verbatim inside the join. -/
theorem joinComma_infix :
    ∀ (l : List String) (m : String), m ∈ l →
      ∃ p q, joinComma l = p ++ (m ++ q) := by
  intro l
  induction l with
  | nil => exact fun m hm => absurd hm (List.not_mem_nil m)
  | cons x rest ih =>
    intro m hm
    cases rest with
    | nil =>
      rcases List.mem_singleton.mp hm with rfl
      exact ⟨"", "", by
        simp [joinComma, String.empty_append, String.append_empty]⟩
    | cons y t =>
      rcases List.mem_cons.mp hm with rfl | hm2
      · refine ⟨"", ", " ++ joinComma (y :: t), ?_⟩
        simp only [joinComma, String.empty_append, String.append_assoc]
      · obtain ⟨p, q, hpq⟩ := ih m hm2
        refine ⟨x ++ ", " ++ p, q, ?_⟩
        simp only [joinComma, hpq, String.append_assoc]

/-- The plugin-not-found message carries the argument name verbatim. -/
theorem generator_not_found_msg_has_arg (gen_name arg_name : String)
    (available : List String) :
    ∃ p q, generator_not_found_msg gen_name arg_name available
        = p ++ (arg_name ++ q) := by
  refine ⟨"Generator \x27" ++ gen_name ++ "\x27 not found for \x27",
    "\x27." ++ (if available.isEmpty then ""
      else "\nAvailable: " ++ joinComma (sortNameList available)), ?_⟩
  simp only [generator_not_found_msg, String.append_assoc]

/-- The plugin-not-found message carries every registered name verbatim. -/
theorem generator_not_found_msg_has_names (gen_name arg_name : String)
    (available : List String) (m : String) (hm : m ∈ available) :
    ∃ p q, generator_not_found_msg gen_name arg_name available
        = p ++ (m ++ q) := by
  obtain ⟨p, q, hpq⟩ :=
    joinComma_infix (sortNameList available) m (mem_sortNameList.mpr hm)
  have hne : available.isEmpty = false := by
    cases available with
    | nil => exact absurd hm (List.not_mem_nil m)
    | cons a t => rfl
  refine ⟨"Generator \x27" ++ gen_name ++ "\x27 not found for \x27" ++ arg_name
      ++ "\x27." ++ "\nAvailable: " ++ p, q, ?_⟩
  simp only [generator_not_found_msg, hne, Bool.false_eq_true, if_false, hpq,
    String.append_assoc]

/-- C8: when a value spec has kind `custom` or carries a generator
override, `generate` resolves the generator name; a registered name yields
exactly that function's result as the token, and an unregistered name
yields a hard error (no token) whose message carries the argument name and
every currently registered generator name. -/
theorem custom_generator_lookup (registry : List (String × GenFunc))
    (builtins : String → Option (Option String)) (value_spec : ValueSpec)
    (arg_name : String) (generator : Option String) (params : Option Params)
    (gen_name : String)
    (hname : resolved_generator_name value_spec generator = some gen_name)
    (hcustom : value_spec.kind = "custom" ∨ generator.isSome) :
    (∀ f, GeneratorRegistry.get registry gen_name = some f →
      ValueGenerator.generate registry builtins value_spec arg_name generator params
        = .ok (some (f (resolved_params value_spec params)))) ∧
    (GeneratorRegistry.get registry gen_name = none →
      ValueGenerator.generate registry builtins value_spec arg_name generator params
          = .error (generator_not_found_msg gen_name arg_name
            (GeneratorRegistry.list_generators registry)) ∧
        (∃ p q, generator_not_found_msg gen_name arg_name
            (GeneratorRegistry.list_generators registry) = p ++ (arg_name ++ q)) ∧
        (∀ m ∈ GeneratorRegistry.list_generators registry,
          ∃ p q, generator_not_found_msg gen_name arg_name
              (GeneratorRegistry.list_generators registry) = p ++ (m ++ q))) := by
  constructor
  · intro f hf
    simp only [ValueGenerator.generate, generate_custom, if_pos hcustom, hname, hf]
  · intro hnone
    refine ⟨?_, generator_not_found_msg_has_arg gen_name arg_name _,
      fun m hm => generator_not_found_msg_has_names gen_name arg_name _ m hm⟩
    simp only [ValueGenerator.generate, generate_custom, if_pos hcustom, hname, hnone]

/-- Concrete registry of the C8 witness: one registered generator `g1`. -/
def registry_w8 : List (String × GenFunc) := [("g1", fun _ => "token_w8")]

/-- Value spec of the C8 witness: kind `custom` naming the absent
generator `missing`. -/
def spec_w8 : ValueSpec := { kind := "custom", generator := some "missing" }

/-- Witness for C8 at a concrete input: looking up the unregistered name
`missing` surfaces the error message rather than a token. -/
theorem custom_generator_lookup_witness :
    ValueGenerator.generate registry_w8 (fun _ => none) spec_w8 "arg1" none none
        = .error (generator_not_found_msg "missing" "arg1" ["g1"]) :=
  ((custom_generator_lookup registry_w8 (fun _ => none) spec_w8 "arg1" none none
    "missing" rfl (Or.inl rfl)).2 rfl).1

end ArgsFuzz
